import Mathlib

/-!
# NNUE accumulator caches (`src/nnue/nnue_accumulator.h`)

A shallow embedding of the accumulator header: the king-bucket table
`AccumulatorCaches::KingCacheMaps`, the refresh cache `AccumulatorCaches::Cache`
with its entries, and the `Accumulator` value type.

`Entry::clear` is written with `std::memcpy`, `std::memset`, `offsetof` and
`sizeof`, so the cache is embedded at the level the code works at: a
byte-addressed memory, the cache object at a base address, and the members of
an entry read back from their bytes.
-/

namespace Stockfish.Eval.NNUE

/-! ## Constants of headers that are not part of this file -/

/-- Modelled from the spec: `COLOR_NB` is declared in `types.h`, which is not
among the sources; the spec's data model gives the inner dimension of every
per-side array as "side (2)". -/
abbrev COLOR_NB : Nat := 2

/-- The number of initialisers of `KingCacheMaps[SQUARE_NB]`: ten rows (ranks)
of nine values (files). `SQUARE_NB` itself is declared in `types.h`; the
initialiser list fixes it to no less than this value, and the row-major
indexing `9 * rank + file` of the table is that of a 10 x 9 board. -/
def SQUARE_NB : Nat := 90

/-! ## The king-bucket table -/

/-- The table `AccumulatorCaches::KingCacheMaps`, value by value as in the
source (`static constexpr uint8_t KingCacheMaps[SQUARE_NB]`). -/
def KingCacheMaps : List Nat :=
  [ 0,  0,  0,  6,  0,  3,  0,  0,  0,
    0,  0,  0,  7,  1,  4,  0,  0,  0,
    0,  0,  0,  8,  2,  5,  0,  0,  0,
    0,  0,  0,  0,  0,  0,  0,  0,  0,
    0,  0,  0,  0,  0,  0,  0,  0,  0,
    0,  0,  0,  0,  0,  0,  0,  0,  0,
    0,  0,  0,  0,  0,  0,  0,  0,  0,
    0,  0,  0,  8,  2,  5,  0,  0,  0,
    0,  0,  0,  7,  1,  4,  0,  0,  0,
    0,  0,  0,  6,  0,  3,  0,  0,  0 ]

/-- The outer length of `Cache::entries`, the literal of the declaration
`std::array<std::array<Entry, COLOR_NB>, (9 + 6) * 2 * 3> entries`. -/
def Cache.entries_size : Nat := (9 + 6) * 2 * 3

/-- The number of `Entry` objects the nested array `Cache::entries` holds. -/
def Cache.entryCount : Nat := Cache.entries_size * COLOR_NB

/-- The number of distinct bucket ids the table produces over all squares. -/
def kingBucketCount : Nat := KingCacheMaps.dedup.length

/-! ## Bytes, memory and object representations -/

/-- One byte of storage. -/
abbrev Byte := Fin 256

/-- Byte-addressed memory: the byte stored at every address. -/
abbrev Memory := Nat → Byte

/-- The low eight bits of a number, as a byte (the conversion to
`unsigned char`). -/
def byteOf (n : Nat) : Byte := ⟨n % 256, Nat.mod_lt n (by decide)⟩

/-- The standard-library `memcpy(dest, src, count)`: `count` bytes of the source
object, given by its bytes `src 0, src 1, ...`, are stored from address
`dest` on; every other byte of memory is left as it was. -/
def memcpy (m : Memory) (dest : Nat) (src : Nat → Byte) (count : Nat) : Memory :=
  fun a => if dest ≤ a ∧ a < dest + count then src (a - dest) else m a

/-- The standard-library `memset(dest, ch, count)`: the value `ch`, converted to
`unsigned char`, is stored in each of the `count` bytes from address `dest`
on; every other byte of memory is left as it was. -/
def memset (m : Memory) (dest : Nat) (ch : Nat) (count : Nat) : Memory :=
  fun a => if dest ≤ a ∧ a < dest + count then byteOf ch else m a

/-- The unsigned integer stored little-endian in the `n` bytes from address `a`. -/
def loadLE (m : Memory) (a : Nat) : Nat → Nat
  | 0 => 0
  | n + 1 => (m a).val + 256 * loadLE m (a + 1) n

/-- The value of a two's-complement integer of `bits` bits whose unsigned reading
is `u`. -/
def toSigned (bits : Nat) (u : Nat) : Int :=
  if u < 2 ^ (bits - 1) then (u : Int) else (u : Int) - 2 ^ bits

/-- The values of `BiasType = std::int16_t`. -/
def IsInt16 (x : Int) : Prop := -32768 ≤ x ∧ x < 32768

instance (x : Int) : Decidable (IsInt16 x) := by
  unfold IsInt16; infer_instance

/-- Byte `j` (0 or 1) of the little-endian two's-complement representation of a
16-bit value. -/
def int16Byte (x : Int) (j : Nat) : Byte := byteOf ((x % 65536).toNat / 256 ^ j)

/-- The object representation of an array of `BiasType`: byte `i` of the array is
byte `i % 2` of element `i / 2`. -/
def biasBytes (biases : List Int) (i : Nat) : Byte :=
  int16Byte (biases.getD (i / 2) 0) (i % 2)

/-! ## The network, as far as this header reads it -/

/-- The feature transformer of a network: the header reads its member `biases`,
an array of `TransformedFeatureDimensions` values of `BiasType`. -/
structure FeatureTransformer where
  biases : List Int

/-- The template parameter `Network`: the header reads
`network.featureTransformer->biases` and nothing else. -/
structure Network where
  featureTransformer : FeatureTransformer

/-! ## Layout of `Cache::Entry` -/

/-- What the compiler supplies for `Cache::Entry`: the array lengths, which come
from `nnue_architecture.h` and `types.h`, and the values of the `sizeof` and
`offsetof` expressions. `accumulation` is the first member, at offset 0, with
`sizeof(accumulation) = sizeof(BiasType) * TransformedFeatureDimensions`. -/
structure Layout where
  TransformedFeatureDimensions : Nat
  PSQTBuckets : Nat
  PIECE_TYPE_NB : Nat
  sizeof_Bitboard : Nat
  offsetof_psqtAccumulation : Nat
  offsetof_byColorBB : Nat
  offsetof_byTypeBB : Nat
  sizeof_Entry : Nat

/-- The value of `sizeof(BiasType)`. -/
def sizeof_BiasType : Nat := 2

/-- The value of `sizeof(PSQTWeightType)`. -/
def sizeof_PSQTWeightType : Nat := 4

/-- The value of `sizeof(accumulation)` inside `Entry`. -/
def Layout.sizeof_accumulation (L : Layout) : Nat :=
  sizeof_BiasType * L.TransformedFeatureDimensions

/-- What C++ guarantees of the layout of the struct `Entry`: its members lie in
the order of their declaration, none overlapping the next, all inside the
`sizeof(Entry)` bytes of the object. -/
def Layout.WF (L : Layout) : Prop :=
  L.sizeof_accumulation ≤ L.offsetof_psqtAccumulation ∧
  L.offsetof_psqtAccumulation + sizeof_PSQTWeightType * L.PSQTBuckets ≤ L.offsetof_byColorBB ∧
  L.offsetof_byColorBB + COLOR_NB * L.sizeof_Bitboard ≤ L.offsetof_byTypeBB ∧
  L.offsetof_byTypeBB + L.PIECE_TYPE_NB * L.sizeof_Bitboard ≤ L.sizeof_Entry

instance (L : Layout) : Decidable L.WF := by
  unfold Layout.WF; infer_instance

/-- A layout as a compiler with 64-byte cache lines and 16-byte bitboards gives
it for 4 transformed feature dimensions, 2 PSQT buckets and 8 piece types. -/
def Layout.small : Layout where
  TransformedFeatureDimensions := 4
  PSQTBuckets := 2
  PIECE_TYPE_NB := 8
  sizeof_Bitboard := 16
  offsetof_psqtAccumulation := 8
  offsetof_byColorBB := 16
  offsetof_byTypeBB := 48
  sizeof_Entry := 192

/-! ## `Cache::Entry` -/

/-- The member `accumulation[k]` of the entry at address `entry`. -/
def Entry.accumulation (_L : Layout) (m : Memory) (entry k : Nat) : Int :=
  toSigned 16 (loadLE m (entry + sizeof_BiasType * k) sizeof_BiasType)

/-- The member `psqtAccumulation[j]` of the entry at address `entry`. -/
def Entry.psqtAccumulation (L : Layout) (m : Memory) (entry j : Nat) : Int :=
  toSigned 32
    (loadLE m (entry + L.offsetof_psqtAccumulation + sizeof_PSQTWeightType * j)
      sizeof_PSQTWeightType)

/-- The member `byColorBB[c]` of the entry at address `entry`. -/
def Entry.byColorBB (L : Layout) (m : Memory) (entry c : Nat) : Nat :=
  loadLE m (entry + L.offsetof_byColorBB + L.sizeof_Bitboard * c) L.sizeof_Bitboard

/-- The member `byTypeBB[t]` of the entry at address `entry`. -/
def Entry.byTypeBB (L : Layout) (m : Memory) (entry t : Nat) : Nat :=
  loadLE m (entry + L.offsetof_byTypeBB + L.sizeof_Bitboard * t) L.sizeof_Bitboard

/-- The function `Entry::clear(const BiasType* biases)` on the entry at address
`this`: the `memcpy` into `accumulation`, then the `memset` from the offset of
`psqtAccumulation` to the end of the entry. -/
def Entry.clear (L : Layout) (this : Nat) (biases : List Int) (m : Memory) : Memory :=
  let m1 := memcpy m this (biasBytes biases) L.sizeof_accumulation
  memset m1 (this + L.offsetof_psqtAccumulation) 0
    (L.sizeof_Entry - L.offsetof_psqtAccumulation)

/-- The first address of the byte range `Entry::clear` passes to `memset`:
`(uint8_t*) this + offsetof(Entry, psqtAccumulation)`. -/
def Entry.zeroedFrom (L : Layout) (this : Nat) : Nat := this + L.offsetof_psqtAccumulation

/-- The length of the byte range `Entry::clear` passes to `memset`:
`sizeof(Entry) - offsetof(Entry, psqtAccumulation)`. -/
def Entry.zeroedCount (L : Layout) : Nat := L.sizeof_Entry - L.offsetof_psqtAccumulation

/-- The values of all members of the entry at address `entry`: `accumulation`,
`psqtAccumulation`, `byColorBB`, `byTypeBB`. -/
def Entry.members (L : Layout) (m : Memory) (entry : Nat) :
    List Int × List Int × List Nat × List Nat :=
  ((List.range L.TransformedFeatureDimensions).map (Entry.accumulation L m entry),
   (List.range L.PSQTBuckets).map (Entry.psqtAccumulation L m entry),
   (List.range COLOR_NB).map (Entry.byColorBB L m entry),
   (List.range L.PIECE_TYPE_NB).map (Entry.byTypeBB L m entry))

/-! ## `Cache` and `AccumulatorCaches` -/

/-- The value of `sizeof(std::array<Entry, COLOR_NB>)`, one row of `entries`. -/
def Cache.sizeof_row (L : Layout) : Nat := COLOR_NB * L.sizeof_Entry

/-- The address of `entries[i][c]` in the cache at address `this`; `entries` is
the only member of `Cache`. -/
def Cache.entryAddr (L : Layout) (this i c : Nat) : Nat :=
  this + i * Cache.sizeof_row L + c * L.sizeof_Entry

/-- The function `Cache::clear(const Network& network)`: the two nested range-for
loops over `entries`, calling `Entry::clear` on each entry in turn. -/
def Cache.clear (L : Layout) (this : Nat) (network : Network) (m : Memory) : Memory :=
  (List.range Cache.entries_size).foldl
    (fun m i =>
      (List.range COLOR_NB).foldl
        (fun m c => Entry.clear L (Cache.entryAddr L this i c) network.featureTransformer.biases m)
        m)
    m

/-- The operator `Cache::operator[](int index)`: the address of the row
`entries[index]`; `std::array` has no element for an index outside its
bounds. -/
def Cache.index (L : Layout) (this : Nat) (index : Int) : Option Nat :=
  if 0 ≤ index ∧ index < Cache.entries_size then
    some (this + index.toNat * Cache.sizeof_row L)
  else none

/-- The operator `std::array<Entry, COLOR_NB>::operator[]` on a row of the cache:
the address of the entry of one side. -/
def Cache.rowIndex (L : Layout) (row : Nat) (side : Nat) : Option Nat :=
  if side < COLOR_NB then some (row + side * L.sizeof_Entry) else none

/-- The function `AccumulatorCaches::clear(const Network& network)`; `cache` is
the only non-static member of `AccumulatorCaches`. -/
def AccumulatorCaches.clear (L : Layout) (this : Nat) (network : Network) (m : Memory) :
    Memory :=
  Cache.clear L this network m

/-- The constructor `AccumulatorCaches(const Network& network)`, run on the
storage at address `this`, whose bytes before construction are those of `m`. -/
def AccumulatorCaches.construct (L : Layout) (this : Nat) (network : Network) (m : Memory) :
    Memory :=
  AccumulatorCaches.clear L this network m

/-- The values of the members of every entry of the cache, row by row. -/
def Cache.members (L : Layout) (this : Nat) (m : Memory) :
    List (List (List Int × List Int × List Nat × List Nat)) :=
  (List.range Cache.entries_size).map fun i =>
    (List.range COLOR_NB).map fun c => Entry.members L m (Cache.entryAddr L this i c)

/-- The state of the entry at address `entry` right after a reset with the bias
vector `biases`: `accumulation` holds the biases, `psqtAccumulation` and both
bitboard arrays hold zeros. -/
def Entry.IsReset (L : Layout) (m : Memory) (entry : Nat) (biases : List Int) : Prop :=
  (∀ k, k < L.TransformedFeatureDimensions →
      biases[k]? = some (Entry.accumulation L m entry k)) ∧
    (∀ j, j < L.PSQTBuckets → Entry.psqtAccumulation L m entry j = 0) ∧
    (∀ c, c < COLOR_NB → Entry.byColorBB L m entry c = 0) ∧
    (∀ t, t < L.PIECE_TYPE_NB → Entry.byTypeBB L m entry t = 0)

/-- A network with four biases, among them the least and the greatest value of
`BiasType`. -/
def Network.small : Network := ⟨⟨[1, -2, 32767, -32768]⟩⟩

/-- Another network with four biases. -/
def Network.other : Network := ⟨⟨[7, 0, -300, 12345]⟩⟩

/-- Storage whose every byte is `0xFF`, standing for memory that was never
initialised. -/
def Memory.garbage : Memory := fun _ => 255

/-! ## Region writers

The shape every function of this header that writes memory has: it rewrites a
block of bytes at a base address, each byte a function of its offset in the
block and of its old value, and touches nothing outside the block. -/

/-- The update `W p`, for every base address `p`, rewrites the `size` bytes from
`p` on, the byte at `p + r` becoming `img r` of its old value, and leaves every
other byte as it was. -/
def WritesRegion (size : Nat) (img : Nat → Byte → Byte) (W : Nat → Memory → Memory) : Prop :=
  ∀ p m a, W p m a = if p ≤ a ∧ a < p + size then img (a - p) (m a) else m a

/-- What `Entry::clear` leaves in the byte at offset `r` of the entry, given the
byte `old` that was there: zero from the offset of `psqtAccumulation` on, the
bias bytes inside `accumulation`, the old byte in padding between the two. -/
def Entry.clearedByte (L : Layout) (biases : List Int) (r : Nat) (old : Byte) : Byte :=
  if L.offsetof_psqtAccumulation ≤ r then 0
  else if r < L.sizeof_accumulation then biasBytes biases r
  else old

/-! ## `Accumulator` -/

/-- The struct `Accumulator`: per side, the transformed feature vector, the PSQT
partial sums and the flag `computed`. -/
structure Accumulator where
  accumulation : Fin COLOR_NB → List Int
  psqtAccumulation : Fin COLOR_NB → List Int
  computed : Fin COLOR_NB → Bool

/-- Modelled from the spec: the operation Invalidate(side) of the Accumulator
component, "sets `computed[side] = false`. No other state changes." The code
that writes the flag is in the feature transformer, which is not among the
sources; this header declares the struct only. -/
def Accumulator.Invalidate (a : Accumulator) (side : Fin COLOR_NB) : Accumulator :=
  { a with computed := Function.update a.computed side false }

/-- Modelled from the spec: the operation Publish(side, accumulation, psqt) of the
Accumulator component, "overwrites the side's arrays and sets
`computed[side] = true`." The code that fills an accumulator is in the feature
transformer, which is not among the sources. -/
def Accumulator.Publish (a : Accumulator) (side : Fin COLOR_NB)
    (accumulation psqt : List Int) : Accumulator :=
  { accumulation := Function.update a.accumulation side accumulation
    psqtAccumulation := Function.update a.psqtAccumulation side psqt
    computed := Function.update a.computed side true }

/-- The two operations on an accumulator, as labels of steps. -/
inductive Accumulator.Op where
  | Invalidate (side : Fin COLOR_NB)
  | Publish (side : Fin COLOR_NB) (accumulation psqt : List Int)

/-- The step relation of an accumulator: one step is one Invalidate or one
Publish. -/
inductive Accumulator.Step : Accumulator → Accumulator.Op → Accumulator → Prop where
  | invalidate (a : Accumulator) (side : Fin COLOR_NB) :
      Accumulator.Step a (.Invalidate side) (a.Invalidate side)
  | publish (a : Accumulator) (side : Fin COLOR_NB) (accumulation psqt : List Int) :
      Accumulator.Step a (.Publish side accumulation psqt) (a.Publish side accumulation psqt)

/-- The traces of an accumulator: `Trace a0 ops a` when the steps `ops`, taken in
order from the state `a0`, end in the state `a`. -/
inductive Accumulator.Trace : Accumulator → List Accumulator.Op → Accumulator → Prop where
  | start (a : Accumulator) : Accumulator.Trace a [] a
  | step {a0 a a2 : Accumulator} {ops : List Accumulator.Op} {op : Accumulator.Op} :
      Accumulator.Trace a0 ops a → Accumulator.Step a op a2 →
      Accumulator.Trace a0 (ops ++ [op]) a2

/-- The state one operation leaves. -/
def Accumulator.apply (a : Accumulator) : Accumulator.Op → Accumulator
  | .Invalidate side => a.Invalidate side
  | .Publish side accumulation psqt => a.Publish side accumulation psqt

/-- The state a sequence of operations, run in order, leaves. -/
def Accumulator.run (a0 : Accumulator) (ops : List Accumulator.Op) : Accumulator :=
  ops.foldl Accumulator.apply a0

/-- An accumulator on which nothing has been computed yet: empty arrays, both
flags false. -/
def Accumulator.fresh : Accumulator :=
  { accumulation := fun _ => [], psqtAccumulation := fun _ => [], computed := fun _ => false }

/-! ## Lemmas -/

/-- Every value of the table is below 9. -/
theorem KingCacheMaps_lt_nine : ∀ b ∈ KingCacheMaps, b < 9 := by decide

/-- The byte `memset` stores for the value 0 is the zero byte. -/
theorem byteOf_zero : byteOf 0 = 0 := rfl

/-- The function `Entry::clear` rewrites the `sizeof(Entry)` bytes of its entry, each
byte as `Entry.clearedByte` says, and nothing else. -/
theorem Entry.clear_writes_entry (L : Layout) (hL : L.WF) (biases : List Int) :
    WritesRegion L.sizeof_Entry (Entry.clearedByte L biases)
      (fun p m => Entry.clear L p biases m) := by
  intro p m a
  obtain ⟨h1, h2, h3, h4⟩ := hL
  simp only [Entry.clear, memcpy, memset, Entry.clearedByte, byteOf_zero]
  split_ifs <;> first | rfl | omega

/-- A loop that applies a region writer to `n` consecutive blocks is a region
writer on the `n * size` bytes they cover. -/
theorem WritesRegion.iterate {size : Nat} {img : Nat → Byte → Byte}
    {W : Nat → Memory → Memory} (h : WritesRegion size img W) (n : Nat) :
    WritesRegion (n * size) (fun r old => img (r % size) old)
      (fun p m => (List.range n).foldl (fun m j => W (p + j * size) m) m) := by
  induction n with
  | zero =>
    intro p m a
    simp only [List.range_zero, List.foldl_nil, Nat.zero_mul, Nat.add_zero]
    rw [if_neg (by omega)]
  | succ n ih =>
    intro p m a
    simp only [List.range_succ, List.foldl_append, List.foldl_cons, List.foldl_nil]
    have e := ih p m a
    beta_reduce at e
    rw [h (p + n * size), e, Nat.succ_mul]
    by_cases hin : p + n * size ≤ a ∧ a < p + n * size + size
    · have hmod : (a - p) % size = a - (p + n * size) := by
        have e : a - p = (a - (p + n * size)) + n * size := by omega
        rw [e, Nat.add_mul_mod_self_right]
        exact Nat.mod_eq_of_lt (by omega)
      rw [if_pos hin, if_neg (by omega), if_pos (by omega), hmod]
    · rw [if_neg hin]
      by_cases hlo : p ≤ a ∧ a < p + n * size
      · rw [if_pos hlo, if_pos (by omega)]
      · rw [if_neg hlo, if_neg (by omega)]

/-- The function `Cache::clear` rewrites the bytes of `entries`, each byte by its
offset inside its own entry, and nothing else. -/
theorem Cache.clear_writes_cache (L : Layout) (hL : L.WF) (network : Network) :
    WritesRegion (Cache.entries_size * Cache.sizeof_row L)
      (fun r old => Entry.clearedByte L network.featureTransformer.biases (r % L.sizeof_Entry) old)
      (fun p m => Cache.clear L p network m) := by
  have hrow := (Entry.clear_writes_entry L hL network.featureTransformer.biases).iterate COLOR_NB
  have hall := hrow.iterate Cache.entries_size
  intro p m a
  have := hall p m a
  simp only [Cache.clear, Cache.entryAddr, Cache.sizeof_row]
  refine this.trans ?_
  have hd : (a - p) % (COLOR_NB * L.sizeof_Entry) % L.sizeof_Entry = (a - p) % L.sizeof_Entry :=
    Nat.mod_mod_of_dvd _ (Dvd.intro_left _ rfl)
  simp only [hd]

/-- Offset `r` of `entries[i][c]` is an address inside `entries`, at offset `r` of
an entry. -/
theorem Cache.entryAddr_bounds (L : Layout) (this i c r : Nat) (hi : i < Cache.entries_size)
    (hc : c < COLOR_NB) (hr : r < L.sizeof_Entry) :
    this ≤ Cache.entryAddr L this i c + r ∧
      Cache.entryAddr L this i c + r < this + Cache.entries_size * Cache.sizeof_row L ∧
      (Cache.entryAddr L this i c + r - this) % L.sizeof_Entry = r := by
  have hsz : Cache.entries_size = 90 := rfl
  have hcn : COLOR_NB = 2 := rfl
  have hi2 : i * L.sizeof_Entry ≤ 89 * L.sizeof_Entry := Nat.mul_le_mul_right _ (by omega)
  have hc2 : c * L.sizeof_Entry ≤ 1 * L.sizeof_Entry := Nat.mul_le_mul_right _ (by omega)
  have e1 : i * (2 * L.sizeof_Entry) = 2 * (i * L.sizeof_Entry) := by ring
  simp only [Cache.entryAddr, Cache.sizeof_row, hsz, hcn, e1]
  refine ⟨by omega, by omega, ?_⟩
  have e2 : this + 2 * (i * L.sizeof_Entry) + c * L.sizeof_Entry + r - this =
      r + L.sizeof_Entry * (2 * i + c) := by
    have : L.sizeof_Entry * (2 * i + c) = 2 * (i * L.sizeof_Entry) + c * L.sizeof_Entry := by
      ring
    omega
  rw [e2, Nat.add_mul_mod_self_left]
  exact Nat.mod_eq_of_lt hr

/-- What `Cache::clear` leaves at offset `r` of `entries[i][c]`. -/
theorem Cache.clear_entry_byte (L : Layout) (hL : L.WF) (network : Network) (this : Nat)
    (m : Memory) (i c r : Nat) (hi : i < Cache.entries_size) (hc : c < COLOR_NB)
    (hr : r < L.sizeof_Entry) :
    Cache.clear L this network m (Cache.entryAddr L this i c + r) =
      Entry.clearedByte L network.featureTransformer.biases r
        (m (Cache.entryAddr L this i c + r)) := by
  obtain ⟨h1, h2, h3⟩ := Cache.entryAddr_bounds L this i c r hi hc hr
  have h := Cache.clear_writes_cache L hL network this m (Cache.entryAddr L this i c + r)
  beta_reduce at h
  rw [h, if_pos ⟨h1, h2⟩, h3]

/-- The function `Cache::clear` leaves every byte outside `entries` as it was. -/
theorem Cache.clear_outside (L : Layout) (hL : L.WF) (network : Network) (this : Nat)
    (m : Memory) (a : Nat)
    (ha : a < this ∨ this + Cache.entries_size * Cache.sizeof_row L ≤ a) :
    Cache.clear L this network m a = m a := by
  have h := Cache.clear_writes_cache L hL network this m a
  beta_reduce at h
  rw [h, if_neg (by omega)]

/-- A load reads only the bytes of its range. -/
theorem loadLE_congr (m1 m2 : Memory) (n : Nat) :
    ∀ a : Nat, (∀ j, j < n → m1 (a + j) = m2 (a + j)) → loadLE m1 a n = loadLE m2 a n := by
  induction n with
  | zero => intro a _; rfl
  | succ n ih =>
    intro a h
    have h0 := h 0 (by omega)
    rw [Nat.add_zero] at h0
    have hrest := ih (a + 1) (fun j hj => by
      have := h (j + 1) (by omega)
      rwa [show a + (j + 1) = a + 1 + j by omega] at this)
    simp only [loadLE, h0, hrest]

/-- A load from zero bytes gives zero. -/
theorem loadLE_zero (m : Memory) (n : Nat) :
    ∀ a : Nat, (∀ j, j < n → m (a + j) = 0) → loadLE m a n = 0 := by
  induction n with
  | zero => intro a _; rfl
  | succ n ih =>
    intro a h
    have h0 := h 0 (by omega)
    rw [Nat.add_zero] at h0
    have hrest := ih (a + 1) (fun j hj => by
      have := h (j + 1) (by omega)
      rwa [show a + (j + 1) = a + 1 + j by omega] at this)
    simp only [loadLE, h0, hrest]
    rfl

/-- Reading back the two bytes of a 16-bit value gives that value. -/
theorem toSigned_int16Bytes (x : Int) (hx : IsInt16 x) :
    toSigned 16 ((int16Byte x 0).val + 256 * ((int16Byte x 1).val + 256 * 0)) = x := by
  obtain ⟨lo, hi⟩ := hx
  simp only [int16Byte, byteOf, toSigned]
  have hu : ((x % 65536).toNat : Int) = x % 65536 := Int.toNat_of_nonneg (by omega)
  generalize (x % 65536).toNat = u at hu
  norm_num
  split_ifs <;> omega

/-- After `Cache::clear` the bytes of `accumulation` are the bias bytes. -/
theorem Cache.clear_accumulation_byte (L : Layout) (hL : L.WF) (network : Network)
    (this : Nat) (m : Memory) (i c r : Nat) (hi : i < Cache.entries_size) (hc : c < COLOR_NB)
    (hr : r < L.sizeof_accumulation) :
    Cache.clear L this network m (Cache.entryAddr L this i c + r) =
      biasBytes network.featureTransformer.biases r := by
  have hL2 := hL
  obtain ⟨h1, h2, h3, h4⟩ := hL2
  rw [Cache.clear_entry_byte L hL network this m i c r hi hc (by omega)]
  unfold Entry.clearedByte
  rw [if_neg (by omega), if_pos hr]

/-- After `Cache::clear` every byte of an entry from the offset of
`psqtAccumulation` on is zero. -/
theorem Cache.clear_tail_byte (L : Layout) (hL : L.WF) (network : Network)
    (this : Nat) (m : Memory) (i c r : Nat) (hi : i < Cache.entries_size) (hc : c < COLOR_NB)
    (hlo : L.offsetof_psqtAccumulation ≤ r) (hr : r < L.sizeof_Entry) :
    Cache.clear L this network m (Cache.entryAddr L this i c + r) = 0 := by
  rw [Cache.clear_entry_byte L hL network this m i c r hi hc hr]
  unfold Entry.clearedByte
  rw [if_pos hlo]

/-- After `Cache::clear`, `accumulation[k]` of every entry is read from the two
bytes of bias `k`, whatever the memory was before. -/
theorem Cache.clear_accumulation (L : Layout) (hL : L.WF) (network : Network)
    (this : Nat) (m : Memory) (i c k : Nat) (hi : i < Cache.entries_size) (hc : c < COLOR_NB)
    (hk : k < L.TransformedFeatureDimensions) :
    Entry.accumulation L (Cache.clear L this network m) (Cache.entryAddr L this i c) k =
      toSigned 16
        ((int16Byte (network.featureTransformer.biases.getD k 0) 0).val +
          256 * ((int16Byte (network.featureTransformer.biases.getD k 0) 1).val + 256 * 0)) := by
  have hs : L.sizeof_accumulation = 2 * L.TransformedFeatureDimensions := rfl
  have b0 := Cache.clear_accumulation_byte L hL network this m i c (2 * k) hi hc (by omega)
  have b1 := Cache.clear_accumulation_byte L hL network this m i c (2 * k + 1) hi hc (by omega)
  have d0 : 2 * k / 2 = k := by omega
  have d1 : (2 * k + 1) / 2 = k := by omega
  have r0 : 2 * k % 2 = 0 := by omega
  have r1 : (2 * k + 1) % 2 = 1 := by omega
  simp only [biasBytes, d0, d1, r0, r1] at b0 b1
  simp only [Entry.accumulation, sizeof_BiasType, loadLE]
  rw [b0, show Cache.entryAddr L this i c + 2 * k + 1 = Cache.entryAddr L this i c + (2 * k + 1)
    from rfl, b1]

/-- After `Cache::clear`, `psqtAccumulation[j]` of every entry is zero. -/
theorem Cache.clear_psqtAccumulation (L : Layout) (hL : L.WF) (network : Network)
    (this : Nat) (m : Memory) (i c j : Nat) (hi : i < Cache.entries_size) (hc : c < COLOR_NB)
    (hj : j < L.PSQTBuckets) :
    Entry.psqtAccumulation L (Cache.clear L this network m) (Cache.entryAddr L this i c) j
      = 0 := by
  have hL2 := hL
  obtain ⟨h1, h2, h3, h4⟩ := hL2
  have hw : sizeof_PSQTWeightType = 4 := rfl
  rw [hw] at h2
  have hz : loadLE (Cache.clear L this network m)
      (Cache.entryAddr L this i c + L.offsetof_psqtAccumulation + 4 * j) 4 = 0 := by
    apply loadLE_zero
    intro t ht
    rw [show Cache.entryAddr L this i c + L.offsetof_psqtAccumulation + 4 * j + t =
      Cache.entryAddr L this i c + (L.offsetof_psqtAccumulation + 4 * j + t) by omega]
    exact Cache.clear_tail_byte L hL network this m i c _ hi hc (by omega) (by omega)
  simp only [Entry.psqtAccumulation, hw, hz]
  rfl

/-- After `Cache::clear`, `byColorBB[s]` of every entry is zero. -/
theorem Cache.clear_byColorBB (L : Layout) (hL : L.WF) (network : Network)
    (this : Nat) (m : Memory) (i c s : Nat) (hi : i < Cache.entries_size) (hc : c < COLOR_NB)
    (hs : s < COLOR_NB) :
    Entry.byColorBB L (Cache.clear L this network m) (Cache.entryAddr L this i c) s = 0 := by
  have hL2 := hL
  obtain ⟨h1, h2, h3, h4⟩ := hL2
  have hmul : L.sizeof_Bitboard * s + L.sizeof_Bitboard ≤ COLOR_NB * L.sizeof_Bitboard := by
    calc L.sizeof_Bitboard * s + L.sizeof_Bitboard = (s + 1) * L.sizeof_Bitboard := by ring
      _ ≤ COLOR_NB * L.sizeof_Bitboard := Nat.mul_le_mul_right _ hs
  unfold Entry.byColorBB
  apply loadLE_zero
  intro t ht
  rw [show Cache.entryAddr L this i c + L.offsetof_byColorBB + L.sizeof_Bitboard * s + t =
    Cache.entryAddr L this i c + (L.offsetof_byColorBB + L.sizeof_Bitboard * s + t) by omega]
  exact Cache.clear_tail_byte L hL network this m i c _ hi hc (by omega) (by omega)

/-- After `Cache::clear`, `byTypeBB[t]` of every entry is zero. -/
theorem Cache.clear_byTypeBB (L : Layout) (hL : L.WF) (network : Network)
    (this : Nat) (m : Memory) (i c t : Nat) (hi : i < Cache.entries_size) (hc : c < COLOR_NB)
    (ht : t < L.PIECE_TYPE_NB) :
    Entry.byTypeBB L (Cache.clear L this network m) (Cache.entryAddr L this i c) t = 0 := by
  have hL2 := hL
  obtain ⟨h1, h2, h3, h4⟩ := hL2
  have hmul : L.sizeof_Bitboard * t + L.sizeof_Bitboard ≤ L.PIECE_TYPE_NB * L.sizeof_Bitboard := by
    calc L.sizeof_Bitboard * t + L.sizeof_Bitboard = (t + 1) * L.sizeof_Bitboard := by ring
      _ ≤ L.PIECE_TYPE_NB * L.sizeof_Bitboard := Nat.mul_le_mul_right _ ht
  unfold Entry.byTypeBB
  apply loadLE_zero
  intro u hu
  rw [show Cache.entryAddr L this i c + L.offsetof_byTypeBB + L.sizeof_Bitboard * t + u =
    Cache.entryAddr L this i c + (L.offsetof_byTypeBB + L.sizeof_Bitboard * t + u) by omega]
  exact Cache.clear_tail_byte L hL network this m i c _ hi hc (by omega) (by omega)

/-- After `Cache::clear` every entry is in the reset state for the biases of the
network. -/
theorem Cache.clear_isReset (L : Layout) (hL : L.WF) (network : Network)
    (hlen : network.featureTransformer.biases.length = L.TransformedFeatureDimensions)
    (hbias : ∀ x ∈ network.featureTransformer.biases, IsInt16 x)
    (this : Nat) (m : Memory) (i side : Nat) (hi : i < Cache.entries_size)
    (hside : side < COLOR_NB) :
    Entry.IsReset L (Cache.clear L this network m) (Cache.entryAddr L this i side)
      network.featureTransformer.biases := by
  refine ⟨fun k hk => ?_, fun j hj => Cache.clear_psqtAccumulation L hL network this m i side j hi hside hj,
    fun c hc => Cache.clear_byColorBB L hL network this m i side c hi hside hc,
    fun t ht => Cache.clear_byTypeBB L hL network this m i side t hi hside ht⟩
  have hk2 : k < network.featureTransformer.biases.length := by omega
  rw [Cache.clear_accumulation L hL network this m i side k hi hside hk,
    List.getD_eq_getElem _ _ hk2, toSigned_int16Bytes _ (hbias _ (List.getElem_mem hk2)),
    List.getElem?_eq_getElem hk2]

/-- The members of all entries after `Cache::clear` do not depend on the memory
the clear started from. -/
theorem Cache.members_clear_irrelevant (L : Layout) (hL : L.WF) (network : Network)
    (this : Nat) (m m2 : Memory) :
    Cache.members L this (Cache.clear L this network m) =
      Cache.members L this (Cache.clear L this network m2) := by
  unfold Cache.members
  apply List.map_congr_left
  intro i hi
  apply List.map_congr_left
  intro c hc
  rw [List.mem_range] at hi hc
  unfold Entry.members
  have e1 : (List.range L.TransformedFeatureDimensions).map
      (Entry.accumulation L (Cache.clear L this network m) (Cache.entryAddr L this i c)) =
      (List.range L.TransformedFeatureDimensions).map
      (Entry.accumulation L (Cache.clear L this network m2) (Cache.entryAddr L this i c)) := by
    apply List.map_congr_left
    intro k hk
    rw [List.mem_range] at hk
    rw [Cache.clear_accumulation L hL network this m i c k hi hc hk,
      Cache.clear_accumulation L hL network this m2 i c k hi hc hk]
  have e2 : (List.range L.PSQTBuckets).map
      (Entry.psqtAccumulation L (Cache.clear L this network m) (Cache.entryAddr L this i c)) =
      (List.range L.PSQTBuckets).map
      (Entry.psqtAccumulation L (Cache.clear L this network m2) (Cache.entryAddr L this i c)) := by
    apply List.map_congr_left
    intro k hk
    rw [List.mem_range] at hk
    rw [Cache.clear_psqtAccumulation L hL network this m i c k hi hc hk,
      Cache.clear_psqtAccumulation L hL network this m2 i c k hi hc hk]
  have e3 : (List.range COLOR_NB).map
      (Entry.byColorBB L (Cache.clear L this network m) (Cache.entryAddr L this i c)) =
      (List.range COLOR_NB).map
      (Entry.byColorBB L (Cache.clear L this network m2) (Cache.entryAddr L this i c)) := by
    apply List.map_congr_left
    intro k hk
    rw [List.mem_range] at hk
    rw [Cache.clear_byColorBB L hL network this m i c k hi hc hk,
      Cache.clear_byColorBB L hL network this m2 i c k hi hc hk]
  have e4 : (List.range L.PIECE_TYPE_NB).map
      (Entry.byTypeBB L (Cache.clear L this network m) (Cache.entryAddr L this i c)) =
      (List.range L.PIECE_TYPE_NB).map
      (Entry.byTypeBB L (Cache.clear L this network m2) (Cache.entryAddr L this i c)) := by
    apply List.map_congr_left
    intro k hk
    rw [List.mem_range] at hk
    rw [Cache.clear_byTypeBB L hL network this m i c k hi hc hk,
      Cache.clear_byTypeBB L hL network this m2 i c k hi hc hk]
  rw [e1, e2, e3, e4]

/-- A second `Cache::clear` overwrites all that a first one wrote. -/
theorem Cache.clear_clear (L : Layout) (hL : L.WF) (n1 n2 : Network) (this : Nat)
    (m : Memory) :
    Cache.clear L this n2 (Cache.clear L this n1 m) = Cache.clear L this n2 m := by
  funext a
  have h2 := Cache.clear_writes_cache L hL n2 this
  have h1 := Cache.clear_writes_cache L hL n1 this m a
  beta_reduce at h1 h2
  rw [h2 (Cache.clear L this n1 m) a, h2 m a, h1]
  by_cases hin : this ≤ a ∧ a < this + Cache.entries_size * Cache.sizeof_row L
  · simp only [if_pos hin, Entry.clearedByte]
    split_ifs <;> rfl
  · simp only [if_neg hin]


/-- When no padding lies between `accumulation` and `psqtAccumulation`, every byte
of `entries` after `Cache::clear` is the same from whatever memory the clear
started. -/
theorem Cache.clear_bytes_irrelevant (L : Layout) (hL : L.WF) (network : Network)
    (this : Nat) (m m2 : Memory) (a : Nat)
    (hpad : L.offsetof_psqtAccumulation = L.sizeof_accumulation)
    (hlo : this ≤ a) (hhi : a < this + Cache.entries_size * Cache.sizeof_row L) :
    Cache.clear L this network m a = Cache.clear L this network m2 a := by
  have h := Cache.clear_writes_cache L hL network this
  beta_reduce at h
  rw [h m a, h m2 a, if_pos ⟨hlo, hhi⟩, if_pos ⟨hlo, hhi⟩]
  unfold Entry.clearedByte
  split_ifs with h1 h2
  · rfl
  · rfl
  · omega

/-- The traces are the runs: the steps `ops` from `a0` end in `a` exactly when
running them gives `a`, so every sequence of operations has its one trace. -/
theorem Accumulator.trace_iff_run (a0 a : Accumulator) (ops : List Accumulator.Op) :
    Accumulator.Trace a0 ops a ↔ a = Accumulator.run a0 ops := by
  constructor
  · intro h
    induction h with
    | start => rfl
    | step _ hstep ih =>
      unfold Accumulator.run at ih ⊢
      rw [List.foldl_append, ← ih]
      cases hstep <;> rfl
  · intro h
    subst h
    induction ops using List.reverseRecOn with
    | nil => exact Accumulator.Trace.start a0
    | append_singleton l op ih =>
      have hrun : Accumulator.run a0 (l ++ [op]) = (Accumulator.run a0 l).apply op := by
        unfold Accumulator.run
        rw [List.foldl_append]
        rfl
      rw [hrun]
      refine Accumulator.Trace.step ih ?_
      cases op with
      | Invalidate side => exact Accumulator.Step.invalidate _ side
      | Publish side accumulation psqt => exact Accumulator.Step.publish _ side accumulation psqt

/-! ## The claims about `Cache::clear` and the constructor -/

/-- Claim C1: for every bias vector of length `TransformedFeatureDimensions` (its
elements being values of `BiasType`) and every prior state of memory, after
`Cache::clear` every entry `entries[i][side]` has `accumulation[k] == biases[k]`
for every `k`, `psqtAccumulation[j] == 0` for every PSQT bucket `j`,
`byColorBB[c] == 0` for both colours and `byTypeBB[t] == 0` for every piece
type `t`. -/
theorem Cache.clear_resets_every_entry (L : Layout) (hL : L.WF) (network : Network)
    (hlen : network.featureTransformer.biases.length = L.TransformedFeatureDimensions)
    (hbias : ∀ x ∈ network.featureTransformer.biases, IsInt16 x)
    (this : Nat) (m : Memory) (i side : Nat) (hi : i < Cache.entries_size)
    (hside : side < COLOR_NB) :
    (∀ k, k < L.TransformedFeatureDimensions →
        network.featureTransformer.biases[k]? =
          some (Entry.accumulation L (Cache.clear L this network m)
            (Cache.entryAddr L this i side) k)) ∧
      (∀ j, j < L.PSQTBuckets →
        Entry.psqtAccumulation L (Cache.clear L this network m)
          (Cache.entryAddr L this i side) j = 0) ∧
      (∀ c, c < COLOR_NB →
        Entry.byColorBB L (Cache.clear L this network m) (Cache.entryAddr L this i side) c = 0) ∧
      (∀ t, t < L.PIECE_TYPE_NB →
        Entry.byTypeBB L (Cache.clear L this network m) (Cache.entryAddr L this i side) t = 0) :=
  Cache.clear_isReset L hL network hlen hbias this m i side hi hside

/-- Claim C1 at a concrete input: the last entry of the cache at address 4096,
cleared from memory full of `0xFF` bytes with a four-element bias vector. -/
theorem Cache.clear_resets_every_entry_witness :
    Layout.small.WF ∧
    Network.small.featureTransformer.biases.length = Layout.small.TransformedFeatureDimensions ∧
    (∀ x ∈ Network.small.featureTransformer.biases, IsInt16 x) ∧
    89 < Cache.entries_size ∧ 1 < COLOR_NB ∧
    ((∀ k, k < Layout.small.TransformedFeatureDimensions →
        Network.small.featureTransformer.biases[k]? =
          some (Entry.accumulation Layout.small
            (Cache.clear Layout.small 4096 Network.small Memory.garbage)
            (Cache.entryAddr Layout.small 4096 89 1) k)) ∧
      (∀ j, j < Layout.small.PSQTBuckets →
        Entry.psqtAccumulation Layout.small
          (Cache.clear Layout.small 4096 Network.small Memory.garbage)
          (Cache.entryAddr Layout.small 4096 89 1) j = 0) ∧
      (∀ c, c < COLOR_NB →
        Entry.byColorBB Layout.small
          (Cache.clear Layout.small 4096 Network.small Memory.garbage)
          (Cache.entryAddr Layout.small 4096 89 1) c = 0) ∧
      (∀ t, t < Layout.small.PIECE_TYPE_NB →
        Entry.byTypeBB Layout.small
          (Cache.clear Layout.small 4096 Network.small Memory.garbage)
          (Cache.entryAddr Layout.small 4096 89 1) t = 0)) :=
  ⟨by decide, by decide, by decide, by decide, by decide,
    Cache.clear_resets_every_entry Layout.small (by decide) Network.small (by decide)
      (by decide) 4096 Memory.garbage 89 1 (by decide) (by decide)⟩


/-- Claim C2: for every square index `sq` in the domain of `KingCacheMaps` and each
side, the bucket `KingCacheMaps[sq]` is below the outer length of
`Cache::entries`, so `cache[KingCacheMaps[sq]][side]` is an existing entry: both
index operators return an element, and that entry lies inside the cache
object. -/
theorem Cache.lookup_in_bounds (L : Layout) (this sq side : Nat)
    (hsq : sq < KingCacheMaps.length) (hside : side < COLOR_NB) :
    ∃ bucket row entry,
      KingCacheMaps[sq]? = some bucket ∧ bucket < Cache.entries_size ∧
        Cache.index L this (bucket : Int) = some row ∧
        Cache.rowIndex L row side = some entry ∧
        entry = Cache.entryAddr L this bucket side ∧
        this ≤ entry ∧
        entry + L.sizeof_Entry ≤ this + Cache.entries_size * Cache.sizeof_row L := by
  have hb : KingCacheMaps[sq] < 9 := KingCacheMaps_lt_nine _ (List.getElem_mem hsq)
  have hsz : Cache.entries_size = 90 := rfl
  have hcn : COLOR_NB = 2 := rfl
  refine ⟨KingCacheMaps[sq], this + KingCacheMaps[sq] * Cache.sizeof_row L,
    Cache.entryAddr L this KingCacheMaps[sq] side, List.getElem?_eq_getElem hsq, by omega,
    ?_, ?_, rfl, ?_, ?_⟩
  · unfold Cache.index
    rw [if_pos ⟨by omega, by omega⟩, Int.toNat_ofNat]
  · unfold Cache.rowIndex
    rw [if_pos hside]
    rfl
  · unfold Cache.entryAddr
    omega
  · have h1 : KingCacheMaps[sq] * L.sizeof_Entry ≤ 8 * L.sizeof_Entry :=
      Nat.mul_le_mul_right _ (by omega)
    have h2 : side * L.sizeof_Entry ≤ 1 * L.sizeof_Entry := Nat.mul_le_mul_right _ (by omega)
    have e1 : KingCacheMaps[sq] * (2 * L.sizeof_Entry) = 2 * (KingCacheMaps[sq] * L.sizeof_Entry) := by
      ring
    simp only [Cache.entryAddr, Cache.sizeof_row, hsz, hcn, e1]
    omega

/-- Claim C2 at a concrete input: square 67, side 1, the cache at address 4096. -/
theorem Cache.lookup_in_bounds_witness :
    67 < KingCacheMaps.length ∧ 1 < COLOR_NB ∧
      ∃ bucket row entry,
        KingCacheMaps[67]? = some bucket ∧ bucket < Cache.entries_size ∧
          Cache.index Layout.small 4096 (bucket : Int) = some row ∧
          Cache.rowIndex Layout.small row 1 = some entry ∧
          entry = Cache.entryAddr Layout.small 4096 bucket 1 ∧
          4096 ≤ entry ∧
          entry + Layout.small.sizeof_Entry ≤
            4096 + Cache.entries_size * Cache.sizeof_row Layout.small :=
  ⟨by decide, by decide, Cache.lookup_in_bounds Layout.small 4096 67 1 (by decide) (by decide)⟩

/-! ## The claims about the king-bucket table -/

/-- Claim C3, the counterexample: on rank 0 the bucket of file 3 is 6 and the
bucket of its horizontal mirror, file 5, is 3, so the table is not left-right
mirror symmetric. -/
theorem KingCacheMaps_horizontal_mirror_fails :
    KingCacheMaps[9 * 0 + 3]? = some 6 ∧ KingCacheMaps[9 * 0 + (8 - 3)]? = some 3 ∧
      ¬ (∀ r f, r < 10 → f < 9 →
        KingCacheMaps[9 * r + f]? = KingCacheMaps[9 * r + (8 - f)]?) := by
  refine ⟨rfl, rfl, fun h => ?_⟩
  have h03 := h 0 3 (by decide) (by decide)
  exact absurd h03 (by decide)

/-- Claim C3, as amended: with `sq = 9 * rank + file`, the bucket of (rank, file)
equals the bucket of the horizontal mirror (rank, 8 - file) for every square but
those on files 3 and 5 of the ranks 0, 1, 2, 7, 8, 9; on those ranks the bucket
at file 3 is the bucket at file 5 plus 3. -/
theorem KingCacheMaps_horizontal_mirror (r f : Nat) (hr : r < 10) (hf : f < 9) :
    (KingCacheMaps[9 * r + f]? = KingCacheMaps[9 * r + (8 - f)]? ↔
        ¬ ((f = 3 ∨ f = 5) ∧ (r ≤ 2 ∨ 7 ≤ r))) ∧
      ((r ≤ 2 ∨ 7 ≤ r) →
        ∃ b, KingCacheMaps[9 * r + 5]? = some b ∧ KingCacheMaps[9 * r + 3]? = some (b + 3)) := by
  have core1 : ∀ r, r < 10 → ∀ f, f < 9 →
      (KingCacheMaps[9 * r + f]? = KingCacheMaps[9 * r + (8 - f)]? ↔
        ¬ ((f = 3 ∨ f = 5) ∧ (r ≤ 2 ∨ 7 ≤ r))) := by
    decide
  have core2 : ∀ r, r < 10 → ((r ≤ 2 ∨ 7 ≤ r) →
      KingCacheMaps[9 * r + 5]? = some (KingCacheMaps.getD (9 * r + 5) 0) ∧
        KingCacheMaps[9 * r + 3]? = some (KingCacheMaps.getD (9 * r + 5) 0 + 3)) := by
    decide
  exact ⟨core1 r hr f hf, fun hp => ⟨_, core2 r hr hp⟩⟩

/-- Claim C3 as amended, at rank 8 and file 3. -/
theorem KingCacheMaps_horizontal_mirror_witness :
    8 < 10 ∧ 3 < 9 ∧
      ((KingCacheMaps[9 * 8 + 3]? = KingCacheMaps[9 * 8 + (8 - 3)]? ↔
          ¬ (((3 : Nat) = 3 ∨ (3 : Nat) = 5) ∧ (8 ≤ 2 ∨ 7 ≤ 8))) ∧
        ((8 ≤ 2 ∨ 7 ≤ 8) →
          ∃ b, KingCacheMaps[9 * 8 + 5]? = some b ∧
            KingCacheMaps[9 * 8 + 3]? = some (b + 3))) :=
  ⟨by decide, by decide, KingCacheMaps_horizontal_mirror 8 3 (by decide) (by decide)⟩

/-- Claim C4, the counterexample: `Cache::entries` holds 180 entries, and twice
the number of distinct bucket ids of `KingCacheMaps` is 18. -/
theorem Cache.entryCount_ne_twice_kingBucketCount :
    Cache.entryCount = 180 ∧ 2 * kingBucketCount = 18 ∧
      ¬ (Cache.entryCount = 2 * kingBucketCount) := by
  refine ⟨rfl, by decide, by decide⟩

/-- Claim C4, as amended: the total slot count of the cache table is its outer
length times 2, the outer length being the literal `(9 + 6) * 2 * 3 = 90` and
not the number of king buckets; `KingCacheMaps` produces 9 distinct bucket
ids, every one of them below the outer length. -/
theorem Cache.entryCount_eq :
    Cache.entryCount = Cache.entries_size * 2 ∧ Cache.entries_size = 90 ∧
      Cache.entryCount = 180 ∧ kingBucketCount = 9 ∧
      (∀ b ∈ KingCacheMaps, b < Cache.entries_size) := by
  refine ⟨rfl, rfl, rfl, by decide, fun b hb => ?_⟩
  have h9 := KingCacheMaps_lt_nine b hb
  have hsz : Cache.entries_size = 90 := rfl
  omega

/-- Claim C5: with `sq = 9 * rank + file`, every square whose file is outside 3..5
or whose rank is in 3..6 has bucket 0; and every square with a non-zero bucket
has its file in 3..5 and its rank among 0, 1, 2, 7, 8, 9. -/
theorem KingCacheMaps_zero_outside_palaces (r f : Nat) (hr : r < 10) (hf : f < 9) :
    (∃ b, KingCacheMaps[9 * r + f]? = some b) ∧
      ((f < 3 ∨ 5 < f ∨ (3 ≤ r ∧ r ≤ 6)) → KingCacheMaps[9 * r + f]? = some 0) ∧
      (∀ b, KingCacheMaps[9 * r + f]? = some b → b ≠ 0 →
        (3 ≤ f ∧ f ≤ 5) ∧ (r ≤ 2 ∨ 7 ≤ r)) := by
  have core : ∀ r, r < 10 → ∀ f, f < 9 →
      (KingCacheMaps[9 * r + f]?).isSome = true ∧
        ((f < 3 ∨ 5 < f ∨ (3 ≤ r ∧ r ≤ 6)) → KingCacheMaps[9 * r + f]? = some 0) := by
    decide
  obtain ⟨h1, h2⟩ := core r hr f hf
  refine ⟨Option.isSome_iff_exists.mp h1, h2, fun b hb hne => ?_⟩
  by_contra hout
  have hzero := h2 (by omega)
  rw [hb] at hzero
  exact hne (Option.some.inj hzero)

/-- Claim C5 at rank 7 and file 4. -/
theorem KingCacheMaps_zero_outside_palaces_witness :
    7 < 10 ∧ 4 < 9 ∧
      ((∃ b, KingCacheMaps[9 * 7 + 4]? = some b) ∧
        ((4 < 3 ∨ 5 < 4 ∨ (3 ≤ 7 ∧ 7 ≤ 6)) → KingCacheMaps[9 * 7 + 4]? = some 0) ∧
        (∀ b, KingCacheMaps[9 * 7 + 4]? = some b → b ≠ 0 →
          (3 ≤ 4 ∧ 4 ≤ 5) ∧ (7 ≤ 2 ∨ 7 ≤ 7))) :=
  ⟨by decide, by decide, KingCacheMaps_zero_outside_palaces 7 4 (by decide) (by decide)⟩

/-- Claim C6, the counterexample: the table does not have 64 entries; index 64
and index 66 are squares of the table too, the second with bucket 8. -/
theorem KingCacheMaps_not_64_entries :
    ¬ (KingCacheMaps.length = 64) ∧ KingCacheMaps[64]? = some 0 ∧
      KingCacheMaps[66]? = some 8 := by
  refine ⟨by decide, by decide, by decide⟩

/-- Claim C6, as amended: `KingCacheMaps` is a constant table with exactly 90
entries, the square indices 0..89 of the 10 x 9 board; every one of those
indices yields one fixed bucket id, and no other index is in the table. -/
theorem KingCacheMaps_total_on_90_squares :
    KingCacheMaps.length = 90 ∧ KingCacheMaps.length = SQUARE_NB ∧
      (∀ sq, sq < SQUARE_NB → ∃! b, KingCacheMaps[sq]? = some b) ∧
      (∀ sq, SQUARE_NB ≤ sq → KingCacheMaps[sq]? = none) := by
  have hlen : KingCacheMaps.length = 90 := rfl
  have hsq : SQUARE_NB = 90 := rfl
  refine ⟨hlen, rfl, fun sq h => ?_, fun sq h => ?_⟩
  · have hlt : sq < KingCacheMaps.length := by omega
    refine ⟨KingCacheMaps[sq], List.getElem?_eq_getElem hlt, fun b hb => ?_⟩
    rw [List.getElem?_eq_getElem hlt] at hb
    exact (Option.some.inj hb).symm
  · exact List.getElem?_eq_none (by omega)

/-- Claim C10: with `sq = 9 * rank + file` (rank 0..9, file 0..8), the bucket of
(rank, file) equals the bucket of its vertical mirror (9 - rank, file). -/
theorem KingCacheMaps_vertical_mirror (r f : Nat) (hr : r < 10) (hf : f < 9) :
    KingCacheMaps[9 * r + f]? = KingCacheMaps[9 * (9 - r) + f]? ∧
      ∃ b, KingCacheMaps[9 * r + f]? = some b := by
  have core : ∀ r, r < 10 → ∀ f, f < 9 →
      KingCacheMaps[9 * r + f]? = KingCacheMaps[9 * (9 - r) + f]? ∧
        (KingCacheMaps[9 * r + f]?).isSome = true := by
    decide
  exact ⟨(core r hr f hf).1, Option.isSome_iff_exists.mp (core r hr f hf).2⟩

/-- Claim C10 at rank 2 and file 3. -/
theorem KingCacheMaps_vertical_mirror_witness :
    2 < 10 ∧ 3 < 9 ∧
      (KingCacheMaps[9 * 2 + 3]? = KingCacheMaps[9 * (9 - 2) + 3]? ∧
        ∃ b, KingCacheMaps[9 * 2 + 3]? = some b) :=
  ⟨by decide, by decide, KingCacheMaps_vertical_mirror 2 3 (by decide) (by decide)⟩

/-- Claim C7: right after an `AccumulatorCaches` is constructed from a network,
whatever the bytes of its storage were before, the state is the one
`clear(network)` produces, and every entry of the cache (every outer index, both
sides) is in the reset state for the biases of the feature transformer of that
network. -/
theorem AccumulatorCaches.construct_is_clear (L : Layout) (hL : L.WF) (network : Network)
    (hlen : network.featureTransformer.biases.length = L.TransformedFeatureDimensions)
    (hbias : ∀ x ∈ network.featureTransformer.biases, IsInt16 x)
    (this : Nat) (m : Memory) :
    AccumulatorCaches.construct L this network m = AccumulatorCaches.clear L this network m ∧
      (∀ m2 : Memory,
        Cache.members L this (AccumulatorCaches.construct L this network m) =
          Cache.members L this (AccumulatorCaches.clear L this network m2)) ∧
      (∀ i side, i < Cache.entries_size → side < COLOR_NB →
        Entry.IsReset L (AccumulatorCaches.construct L this network m)
          (Cache.entryAddr L this i side) network.featureTransformer.biases) :=
  ⟨rfl, fun m2 => Cache.members_clear_irrelevant L hL network this m m2,
    fun i side hi hside => Cache.clear_isReset L hL network hlen hbias this m i side hi hside⟩

/-- Claim C7 at a concrete input: construction at address 4096 on storage full of
`0xFF` bytes. -/
theorem AccumulatorCaches.construct_is_clear_witness :
    Layout.small.WF ∧
      Network.small.featureTransformer.biases.length =
        Layout.small.TransformedFeatureDimensions ∧
      (∀ x ∈ Network.small.featureTransformer.biases, IsInt16 x) ∧
      (AccumulatorCaches.construct Layout.small 4096 Network.small Memory.garbage =
          AccumulatorCaches.clear Layout.small 4096 Network.small Memory.garbage ∧
        (∀ m2 : Memory,
          Cache.members Layout.small 4096
              (AccumulatorCaches.construct Layout.small 4096 Network.small Memory.garbage) =
            Cache.members Layout.small 4096
              (AccumulatorCaches.clear Layout.small 4096 Network.small m2)) ∧
        (∀ i side, i < Cache.entries_size → side < COLOR_NB →
          Entry.IsReset Layout.small
            (AccumulatorCaches.construct Layout.small 4096 Network.small Memory.garbage)
            (Cache.entryAddr Layout.small 4096 i side)
            Network.small.featureTransformer.biases)) :=
  ⟨by decide, by decide, by decide,
    AccumulatorCaches.construct_is_clear Layout.small (by decide) Network.small (by decide)
      (by decide) 4096 Memory.garbage⟩

/-- Claim C8: for any two networks (bias vectors) `b1`, `b2` and any state `s` of
memory, `clear(b2)` after `clear(b1)` gives the same memory as `clear(b2)`
alone; `clear(b)` is idempotent; the members of every entry after `clear(b)`
are the same from whatever state the clear started; and so is every byte of
`entries`, when the layout has no padding between `accumulation` and
`psqtAccumulation`. -/
theorem Cache.clear_forgets_previous_biases (L : Layout) (hL : L.WF) (b1 b2 : Network)
    (this : Nat) (s : Memory) :
    Cache.clear L this b2 (Cache.clear L this b1 s) = Cache.clear L this b2 s ∧
      Cache.clear L this b2 (Cache.clear L this b2 s) = Cache.clear L this b2 s ∧
      (∀ s2 : Memory,
        Cache.members L this (Cache.clear L this b2 s) =
          Cache.members L this (Cache.clear L this b2 s2)) ∧
      (L.offsetof_psqtAccumulation = L.sizeof_accumulation →
        ∀ (s2 : Memory) (a : Nat), this ≤ a →
          a < this + Cache.entries_size * Cache.sizeof_row L →
          Cache.clear L this b2 s a = Cache.clear L this b2 s2 a) :=
  ⟨Cache.clear_clear L hL b1 b2 this s, Cache.clear_clear L hL b2 b2 this s,
    fun s2 => Cache.members_clear_irrelevant L hL b2 this s s2,
    fun hpad s2 a hlo hhi => Cache.clear_bytes_irrelevant L hL b2 this s s2 a hpad hlo hhi⟩

/-- Claim C8 at a concrete input: two networks with different biases, on memory
full of `0xFF` bytes. -/
theorem Cache.clear_forgets_previous_biases_witness :
    Layout.small.WF ∧
      (Cache.clear Layout.small 4096 Network.other
            (Cache.clear Layout.small 4096 Network.small Memory.garbage) =
          Cache.clear Layout.small 4096 Network.other Memory.garbage ∧
        Cache.clear Layout.small 4096 Network.other
            (Cache.clear Layout.small 4096 Network.other Memory.garbage) =
          Cache.clear Layout.small 4096 Network.other Memory.garbage ∧
        (∀ s2 : Memory,
          Cache.members Layout.small 4096
              (Cache.clear Layout.small 4096 Network.other Memory.garbage) =
            Cache.members Layout.small 4096
              (Cache.clear Layout.small 4096 Network.other s2)) ∧
        (Layout.small.offsetof_psqtAccumulation = Layout.small.sizeof_accumulation →
          ∀ (s2 : Memory) (a : Nat), 4096 ≤ a →
            a < 4096 + Cache.entries_size * Cache.sizeof_row Layout.small →
            Cache.clear Layout.small 4096 Network.other Memory.garbage a =
              Cache.clear Layout.small 4096 Network.other s2 a)) :=
  ⟨by decide,
    Cache.clear_forgets_previous_biases Layout.small (by decide) Network.small Network.other
      4096 Memory.garbage⟩

/-! ## The claim about `Accumulator` -/

/-- Claim C9: over the step relation whose steps are Invalidate(side) and
Publish(side, accumulation, psqt), in every trace that starts with
`computed[side] == false` or contains an Invalidate of that side, the side has
`computed[side] == true` at the end only if a Publish for that side occurred
with no Invalidate of that side after it. -/
theorem Accumulator.computed_only_after_publish (a0 a : Accumulator)
    (ops : List Accumulator.Op) (side : Fin COLOR_NB)
    (htrace : Accumulator.Trace a0 ops a)
    (hstart : a0.computed side = false ∨ Accumulator.Op.Invalidate side ∈ ops)
    (hcomputed : a.computed side = true) :
    ∃ pre accumulation psqt post,
      ops = pre ++ Accumulator.Op.Publish side accumulation psqt :: post ∧
        Accumulator.Op.Invalidate side ∉ post := by
  induction htrace with
  | start =>
    rcases hstart with h | h
    · rw [h] at hcomputed; cases hcomputed
    · cases h
  | @step a1 a2 ops op htr hstep ih =>
    cases hstep with
    | invalidate s =>
      by_cases hs : s = side
      · subst hs
        simp [Accumulator.Invalidate] at hcomputed
      · have hc : a1.computed side = true := by
          simpa [Accumulator.Invalidate, Function.update_noteq (Ne.symm hs)] using hcomputed
        have hst : a0.computed side = false ∨ Accumulator.Op.Invalidate side ∈ ops := by
          rcases hstart with h | h
          · exact Or.inl h
          · rw [List.mem_append] at h
            rcases h with h | h
            · exact Or.inr h
            · rw [List.mem_singleton] at h
              injection h with h
              exact absurd h.symm hs
        obtain ⟨pre, acc, psqt, post, hops, hpost⟩ := ih hst hc
        refine ⟨pre, acc, psqt, post ++ [Accumulator.Op.Invalidate s], ?_, ?_⟩
        · rw [hops]; simp
        · intro hmem
          rw [List.mem_append] at hmem
          rcases hmem with h | h
          · exact hpost h
          · rw [List.mem_singleton] at h
            injection h with h
            exact hs h.symm
    | publish s acc psqt =>
      by_cases hs : s = side
      · subst hs
        exact ⟨ops, acc, psqt, [], rfl, by simp⟩
      · have hc : a1.computed side = true := by
          simpa [Accumulator.Publish, Function.update_noteq (Ne.symm hs)] using hcomputed
        have hst : a0.computed side = false ∨ Accumulator.Op.Invalidate side ∈ ops := by
          rcases hstart with h | h
          · exact Or.inl h
          · rw [List.mem_append] at h
            rcases h with h | h
            · exact Or.inr h
            · rw [List.mem_singleton] at h
              cases h
        obtain ⟨pre, acc2, psqt2, post, hops, hpost⟩ := ih hst hc
        refine ⟨pre, acc2, psqt2, post ++ [Accumulator.Op.Publish s acc psqt], ?_, ?_⟩
        · rw [hops]; simp
        · intro hmem
          rw [List.mem_append] at hmem
          rcases hmem with h | h
          · exact hpost h
          · rw [List.mem_singleton] at h
            cases h

/-- Claim C9 at a concrete trace: an Invalidate of side 0 and then a Publish for
side 0, from a fresh accumulator. -/
theorem Accumulator.computed_only_after_publish_witness :
    Accumulator.Trace Accumulator.fresh
        ([] ++ [Accumulator.Op.Invalidate 0] ++ [Accumulator.Op.Publish 0 [5] [6]])
        ((Accumulator.fresh.Invalidate 0).Publish 0 [5] [6]) ∧
      (Accumulator.fresh.computed 0 = false ∨
        Accumulator.Op.Invalidate 0 ∈
          ([] ++ [Accumulator.Op.Invalidate 0] ++ [Accumulator.Op.Publish 0 [5] [6]])) ∧
      ((Accumulator.fresh.Invalidate 0).Publish 0 [5] [6]).computed 0 = true ∧
      ∃ pre accumulation psqt post,
        ([] ++ [Accumulator.Op.Invalidate 0] ++ [Accumulator.Op.Publish 0 [5] [6]]) =
          pre ++ Accumulator.Op.Publish 0 accumulation psqt :: post ∧
        Accumulator.Op.Invalidate 0 ∉ post :=
  have htrace : Accumulator.Trace Accumulator.fresh
      ([] ++ [Accumulator.Op.Invalidate 0] ++ [Accumulator.Op.Publish 0 [5] [6]])
      ((Accumulator.fresh.Invalidate 0).Publish 0 [5] [6]) :=
    Accumulator.Trace.step
      (Accumulator.Trace.step (Accumulator.Trace.start _) (Accumulator.Step.invalidate _ _))
      (Accumulator.Step.publish _ _ _ _)
  ⟨htrace, Or.inl rfl, by decide,
    Accumulator.computed_only_after_publish _ _ _ 0 htrace (Or.inl rfl) (by decide)⟩

/-! ## Lemmas about one entry -/

/-- What `Entry::clear` leaves at offset `r` of its entry. -/
theorem Entry.clear_byte (L : Layout) (hL : L.WF) (this : Nat) (biases : List Int)
    (m : Memory) (r : Nat) (hr : r < L.sizeof_Entry) :
    Entry.clear L this biases m (this + r) = Entry.clearedByte L biases r (m (this + r)) := by
  have h := Entry.clear_writes_entry L hL biases this m (this + r)
  beta_reduce at h
  rw [h, if_pos ⟨by omega, by omega⟩, Nat.add_sub_cancel_left]

/-- The function `Entry::clear` leaves every byte outside its entry as it was. -/
theorem Entry.clear_frame (L : Layout) (hL : L.WF) (this : Nat) (biases : List Int)
    (m : Memory) (a : Nat) (ha : a < this ∨ this + L.sizeof_Entry ≤ a) :
    Entry.clear L this biases m a = m a := by
  have h := Entry.clear_writes_entry L hL biases this m a
  beta_reduce at h
  rw [h, if_neg (by omega)]

/-- After `Entry::clear`, `accumulation[k]` is read from the two bytes of bias `k`,
whatever the memory was before. -/
theorem Entry.clear_accumulation_value (L : Layout) (hL : L.WF) (this : Nat) (biases : List Int)
    (m : Memory) (k : Nat) (hk : k < L.TransformedFeatureDimensions) :
    Entry.accumulation L (Entry.clear L this biases m) this k =
      toSigned 16
        ((int16Byte (biases.getD k 0) 0).val +
          256 * ((int16Byte (biases.getD k 0) 1).val + 256 * 0)) := by
  have hL2 := hL
  obtain ⟨h1, h2, h3, h4⟩ := hL2
  have hs : L.sizeof_accumulation = 2 * L.TransformedFeatureDimensions := rfl
  have b0 := Entry.clear_byte L hL this biases m (2 * k) (by omega)
  have b1 := Entry.clear_byte L hL this biases m (2 * k + 1) (by omega)
  have d0 : 2 * k / 2 = k := by omega
  have d1 : (2 * k + 1) / 2 = k := by omega
  have r0 : 2 * k % 2 = 0 := by omega
  have r1 : (2 * k + 1) % 2 = 1 := by omega
  unfold Entry.clearedByte at b0 b1
  rw [if_neg (by omega), if_pos (by omega)] at b0 b1
  simp only [biasBytes, d0, d1, r0, r1] at b0 b1
  simp only [Entry.accumulation, sizeof_BiasType, loadLE]
  rw [b0, show this + 2 * k + 1 = this + (2 * k + 1) from rfl, b1]

/-- Whatever two bytes are read as a 16-bit integer, the value is one of
`std::int16_t`. -/
theorem toSigned_loadLE_two_isInt16 (m : Memory) (a : Nat) :
    IsInt16 (toSigned 16 (loadLE m a 2)) := by
  have h0 := (m a).isLt
  have h1 := (m (a + 1)).isLt
  simp only [loadLE, toSigned, IsInt16]
  norm_num
  split_ifs <;> constructor <;> omega

/-- Two different entries of `entries` share no byte. -/
theorem Cache.entryAddr_disjoint (L : Layout) (base i c i2 c2 r : Nat) (hc : c < COLOR_NB)
    (hc2 : c2 < COLOR_NB) (hne : ¬ (i2 = i ∧ c2 = c)) (hr : r < L.sizeof_Entry) :
    Cache.entryAddr L base i2 c2 + r < Cache.entryAddr L base i c ∨
      Cache.entryAddr L base i c + L.sizeof_Entry ≤ Cache.entryAddr L base i2 c2 + r := by
  have hcn : COLOR_NB = 2 := rfl
  have e1 : ∀ j d : Nat, Cache.entryAddr L base j d = base + (2 * j + d) * L.sizeof_Entry := by
    intro j d
    simp only [Cache.entryAddr, Cache.sizeof_row, hcn]
    ring
  rw [e1, e1]
  rcases Nat.lt_or_gt_of_ne (show 2 * i2 + c2 ≠ 2 * i + c by omega) with h | h
  · left
    have := Nat.mul_le_mul_right L.sizeof_Entry (show 2 * i2 + c2 + 1 ≤ 2 * i + c from h)
    rw [Nat.add_mul, Nat.one_mul] at this
    omega
  · right
    have := Nat.mul_le_mul_right L.sizeof_Entry (show 2 * i + c + 1 ≤ 2 * i2 + c2 from h)
    rw [Nat.add_mul, Nat.one_mul] at this
    omega

/-! ## More claims about the king-bucket table -/

/-- On either palace the table takes different values on different squares. -/
theorem KingCacheMaps_palace_injective (r0 : Nat) (h0 : r0 = 0 ∨ r0 = 7) :
    ∀ d1, d1 < 3 → ∀ e1, e1 < 3 → ∀ d2, d2 < 3 → ∀ e2, e2 < 3 →
      KingCacheMaps[9 * (r0 + d1) + (3 + e1)]? = KingCacheMaps[9 * (r0 + d2) + (3 + e2)]? →
        d1 = d2 ∧ e1 = e2 := by
  intro d1 h1 e1 h2 d2 h3 e2 h4
  rcases h0 with h | h <;> subst h <;> interval_cases d1 <;> interval_cases e1 <;>
    interval_cases d2 <;> interval_cases e2 <;> decide

/-- Claim C11: restricted to the nine squares of one palace (file in 3..5, rank in
0..2 for the palace at base rank 0, rank in 7..9 for the palace at base rank
7), `KingCacheMaps` is injective and its image is exactly `{0, 1, ..., 8}`. -/
theorem KingCacheMaps_bijective_on_palace (r0 : Nat) (h0 : r0 = 0 ∨ r0 = 7) :
    (∀ r1 f1 r2 f2, r0 ≤ r1 → r1 ≤ r0 + 2 → 3 ≤ f1 → f1 ≤ 5 →
        r0 ≤ r2 → r2 ≤ r0 + 2 → 3 ≤ f2 → f2 ≤ 5 →
        KingCacheMaps[9 * r1 + f1]? = KingCacheMaps[9 * r2 + f2]? → r1 = r2 ∧ f1 = f2) ∧
      (∀ r f, r0 ≤ r → r ≤ r0 + 2 → 3 ≤ f → f ≤ 5 →
        ∃ b, b ≤ 8 ∧ KingCacheMaps[9 * r + f]? = some b) ∧
      (∀ b, b ≤ 8 →
        ∃ r f, (r0 ≤ r ∧ r ≤ r0 + 2) ∧ (3 ≤ f ∧ f ≤ 5) ∧ KingCacheMaps[9 * r + f]? = some b) := by
  refine ⟨?_, ?_, ?_⟩
  · intro r1 f1 r2 f2 a1 a2 a3 a4 a5 a6 a7 a8 heq
    have key := KingCacheMaps_palace_injective r0 h0 (r1 - r0) (by omega) (f1 - 3) (by omega)
      (r2 - r0) (by omega) (f2 - 3) (by omega)
    rw [show r0 + (r1 - r0) = r1 by omega, show 3 + (f1 - 3) = f1 by omega,
      show r0 + (r2 - r0) = r2 by omega, show 3 + (f2 - 3) = f2 by omega] at key
    have := key heq
    omega
  · intro r f a1 a2 a3 a4
    have hlt : 9 * r + f < KingCacheMaps.length := by
      have hlen : KingCacheMaps.length = 90 := rfl
      rcases h0 with h | h <;> omega
    exact ⟨KingCacheMaps[9 * r + f], Nat.le_of_lt_succ (KingCacheMaps_lt_nine _
      (List.getElem_mem hlt)), List.getElem?_eq_getElem hlt⟩
  · have lower : ∀ b, b < 9 → ∃ r, r < 3 ∧ ∃ f, f < 3 ∧
        KingCacheMaps[9 * (0 + r) + (3 + f)]? = some b := by
      decide
    have upper : ∀ b, b < 9 → ∃ r, r < 3 ∧ ∃ f, f < 3 ∧
        KingCacheMaps[9 * (7 + r) + (3 + f)]? = some b := by
      decide
    intro b hb
    rcases h0 with h | h <;> subst h
    · obtain ⟨r, hr, f, hf, hv⟩ := lower b (by omega)
      exact ⟨0 + r, 3 + f, by omega, by omega, hv⟩
    · obtain ⟨r, hr, f, hf, hv⟩ := upper b (by omega)
      exact ⟨7 + r, 3 + f, by omega, by omega, hv⟩

/-- Claim C11 at the palace of ranks 7..9. -/
theorem KingCacheMaps_bijective_on_palace_witness :
    ((7 : Nat) = 0 ∨ (7 : Nat) = 7) ∧
      ((∀ r1 f1 r2 f2, 7 ≤ r1 → r1 ≤ 7 + 2 → 3 ≤ f1 → f1 ≤ 5 →
          7 ≤ r2 → r2 ≤ 7 + 2 → 3 ≤ f2 → f2 ≤ 5 →
          KingCacheMaps[9 * r1 + f1]? = KingCacheMaps[9 * r2 + f2]? → r1 = r2 ∧ f1 = f2) ∧
        (∀ r f, 7 ≤ r → r ≤ 7 + 2 → 3 ≤ f → f ≤ 5 →
          ∃ b, b ≤ 8 ∧ KingCacheMaps[9 * r + f]? = some b) ∧
        (∀ b, b ≤ 8 →
          ∃ r f, (7 ≤ r ∧ r ≤ 7 + 2) ∧ (3 ≤ f ∧ f ≤ 5) ∧
            KingCacheMaps[9 * r + f]? = some b)) :=
  ⟨by decide, KingCacheMaps_bijective_on_palace 7 (by decide)⟩

/-- Claim C12: the bucket ids `KingCacheMaps` produces over all squares are exactly
0..8; each id in 1..8 is produced by exactly two squares; bucket 0 is produced
by every non-palace square and by the two palace squares at file 4 on ranks 0
and 9 (indices 4 and 85), and by no other square, 74 squares in all. -/
theorem KingCacheMaps_bucket_census :
    (∀ b, b ∈ KingCacheMaps ↔ b ≤ 8) ∧
      (∀ b, 1 ≤ b → b ≤ 8 →
        ((List.range SQUARE_NB).filter (fun sq => KingCacheMaps[sq]? = some b)).length = 2) ∧
      (∀ r, r < 10 → ∀ f, f < 9 →
        (KingCacheMaps[9 * r + f]? = some 0 ↔
          (f < 3 ∨ 5 < f ∨ (3 ≤ r ∧ r ≤ 6)) ∨ (f = 4 ∧ (r = 0 ∨ r = 9)))) ∧
      KingCacheMaps[9 * 0 + 4]? = some 0 ∧ KingCacheMaps[9 * 9 + 4]? = some 0 ∧
      ((List.range SQUARE_NB).filter (fun sq => KingCacheMaps[sq]? = some 0)).length = 74 := by
  have hcount : ∀ b, b < 9 →
      ((List.range SQUARE_NB).filter (fun sq => KingCacheMaps[sq]? = some b)).length =
        if b = 0 then 74 else 2 := by
    decide
  refine ⟨fun b => ⟨fun h => Nat.le_of_lt_succ (KingCacheMaps_lt_nine b h), fun h => ?_⟩,
    fun b h1 h8 => ?_, by decide, by decide, by decide, hcount 0 (by decide)⟩
  · interval_cases b <;> decide
  · rw [hcount b (by omega), if_neg (by omega)]

/-! ## More claims about `Entry::clear` -/

/-- Claim C13: `Entry::clear` copies the bias values without modification or
truncation. The elements of `accumulation` are 16-bit signed values of two
bytes each, as the biases are; the copy covers `sizeof(accumulation)`, that is
`TransformedFeatureDimensions` elements, and no byte after them receives a bias
byte; and for every `k < TransformedFeatureDimensions` the resulting
`accumulation[k]` equals `biases[k]`, whatever the memory held before. -/
theorem Entry.clear_copies_biases (L : Layout) (hL : L.WF) (this : Nat) (biases : List Int)
    (m : Memory) (hlen : L.TransformedFeatureDimensions ≤ biases.length)
    (hbias : ∀ x ∈ biases, IsInt16 x) :
    sizeof_BiasType * 8 = 16 ∧
      (∀ (m2 : Memory) (e k : Nat), IsInt16 (Entry.accumulation L m2 e k)) ∧
      L.sizeof_accumulation = sizeof_BiasType * L.TransformedFeatureDimensions ∧
      (∀ k, k < L.TransformedFeatureDimensions →
        biases[k]? = some (Entry.accumulation L (Entry.clear L this biases m) this k)) ∧
      (∀ r, L.sizeof_accumulation ≤ r →
        Entry.clear L this biases m (this + r) =
          if L.offsetof_psqtAccumulation ≤ r ∧ r < L.sizeof_Entry then 0 else m (this + r)) := by
  refine ⟨rfl, fun m2 e k => toSigned_loadLE_two_isInt16 m2 _, rfl, fun k hk => ?_,
    fun r hr => ?_⟩
  · have hk2 : k < biases.length := by omega
    rw [Entry.clear_accumulation_value L hL this biases m k hk, List.getD_eq_getElem _ _ hk2,
      toSigned_int16Bytes _ (hbias _ (List.getElem_mem hk2)), List.getElem?_eq_getElem hk2]
  · have hL2 := hL
    obtain ⟨h1, h2, h3, h4⟩ := hL2
    by_cases hin : r < L.sizeof_Entry
    · rw [Entry.clear_byte L hL this biases m r hin]
      unfold Entry.clearedByte
      by_cases hz : L.offsetof_psqtAccumulation ≤ r
      · rw [if_pos hz, if_pos ⟨hz, hin⟩]
      · rw [if_neg hz, if_neg (by omega), if_neg (fun h => hz h.1)]
    · rw [Entry.clear_frame L hL this biases m (this + r) (by omega), if_neg (fun h => hin h.2)]

/-- Claim C13 at a concrete input: a bias vector of five values, one more than the
four transformed feature dimensions of the layout, on memory full of `0xFF`
bytes. -/
theorem Entry.clear_copies_biases_witness :
    Layout.small.WF ∧
      Layout.small.TransformedFeatureDimensions ≤ [1, -2, 32767, -32768, 99].length ∧
      (∀ x ∈ ([1, -2, 32767, -32768, 99] : List Int), IsInt16 x) ∧
      (sizeof_BiasType * 8 = 16 ∧
        (∀ (m2 : Memory) (e k : Nat), IsInt16 (Entry.accumulation Layout.small m2 e k)) ∧
        Layout.small.sizeof_accumulation =
          sizeof_BiasType * Layout.small.TransformedFeatureDimensions ∧
        (∀ k, k < Layout.small.TransformedFeatureDimensions →
          ([1, -2, 32767, -32768, 99] : List Int)[k]? =
            some (Entry.accumulation Layout.small
              (Entry.clear Layout.small 4096 [1, -2, 32767, -32768, 99] Memory.garbage)
              4096 k)) ∧
        (∀ r, Layout.small.sizeof_accumulation ≤ r →
          Entry.clear Layout.small 4096 [1, -2, 32767, -32768, 99] Memory.garbage (4096 + r) =
            if Layout.small.offsetof_psqtAccumulation ≤ r ∧ r < Layout.small.sizeof_Entry
            then 0 else Memory.garbage (4096 + r))) :=
  ⟨by decide, by decide, by decide,
    Entry.clear_copies_biases Layout.small (by decide) 4096 [1, -2, 32767, -32768, 99]
      Memory.garbage (by decide) (by decide)⟩

/-- Claim C14: the byte range `Entry::clear` zeroes starts at the first byte of
`psqtAccumulation` and ends exactly at the end of the entry (offset plus length
is `sizeof(Entry)`); it covers all of `psqtAccumulation`, `byColorBB` and
`byTypeBB`, which are zero afterwards; it does not overlap `accumulation`, whose
bytes are the bias bytes afterwards; and it does not reach into any other
entry: clearing `entries[i][c]` leaves every byte of every other entry of the
table, and every byte outside the entry, as it was. -/
theorem Entry.clear_zeroes_own_tail (L : Layout) (hL : L.WF) (base i c : Nat)
    (hc : c < COLOR_NB) (biases : List Int) (m : Memory) :
    Entry.clear L (Cache.entryAddr L base i c) biases m =
        memset (memcpy m (Cache.entryAddr L base i c) (biasBytes biases) L.sizeof_accumulation)
          (Entry.zeroedFrom L (Cache.entryAddr L base i c)) 0 (Entry.zeroedCount L) ∧
      Entry.zeroedFrom L (Cache.entryAddr L base i c) =
        Cache.entryAddr L base i c + L.offsetof_psqtAccumulation ∧
      L.offsetof_psqtAccumulation + Entry.zeroedCount L = L.sizeof_Entry ∧
      (L.offsetof_psqtAccumulation + sizeof_PSQTWeightType * L.PSQTBuckets ≤ L.sizeof_Entry ∧
        L.offsetof_psqtAccumulation ≤ L.offsetof_byColorBB ∧
        L.offsetof_byColorBB + COLOR_NB * L.sizeof_Bitboard ≤ L.sizeof_Entry ∧
        L.offsetof_psqtAccumulation ≤ L.offsetof_byTypeBB ∧
        L.offsetof_byTypeBB + L.PIECE_TYPE_NB * L.sizeof_Bitboard ≤ L.sizeof_Entry) ∧
      (∀ r, L.offsetof_psqtAccumulation ≤ r → r < L.sizeof_Entry →
        Entry.clear L (Cache.entryAddr L base i c) biases m (Cache.entryAddr L base i c + r)
          = 0) ∧
      L.sizeof_accumulation ≤ L.offsetof_psqtAccumulation ∧
      (∀ r, r < L.sizeof_accumulation →
        Entry.clear L (Cache.entryAddr L base i c) biases m (Cache.entryAddr L base i c + r)
          = biasBytes biases r) ∧
      (∀ i2 c2, c2 < COLOR_NB → ¬ (i2 = i ∧ c2 = c) → ∀ r, r < L.sizeof_Entry →
        Entry.clear L (Cache.entryAddr L base i c) biases m (Cache.entryAddr L base i2 c2 + r)
          = m (Cache.entryAddr L base i2 c2 + r)) ∧
      (∀ a, a < Cache.entryAddr L base i c ∨ Cache.entryAddr L base i c + L.sizeof_Entry ≤ a →
        Entry.clear L (Cache.entryAddr L base i c) biases m a = m a) := by
  have hL2 := hL
  obtain ⟨h1, h2, h3, h4⟩ := hL2
  have hw : sizeof_PSQTWeightType = 4 := rfl
  refine ⟨rfl, rfl, ?_, ⟨by omega, by omega, by omega, by omega, by omega⟩, fun r hlo hhi => ?_,
    h1, fun r hr => ?_, fun i2 c2 hc2 hne r hr => ?_, fun a ha => ?_⟩
  · unfold Entry.zeroedCount
    omega
  · rw [Entry.clear_byte L hL _ biases m r hhi]
    unfold Entry.clearedByte
    rw [if_pos hlo]
  · rw [Entry.clear_byte L hL _ biases m r (by omega)]
    unfold Entry.clearedByte
    rw [if_neg (by omega), if_pos hr]
  · exact Entry.clear_frame L hL _ biases m _
      (Cache.entryAddr_disjoint L base i c i2 c2 r hc hc2 hne hr)
  · exact Entry.clear_frame L hL _ biases m a ha

/-- Claim C14 at a concrete input: clearing `entries[3][1]` of the cache at address
4096, on memory full of `0xFF` bytes. -/
theorem Entry.clear_zeroes_own_tail_witness :
    Layout.small.WF ∧ 1 < COLOR_NB ∧
      (Entry.clear Layout.small (Cache.entryAddr Layout.small 4096 3 1)
            Network.small.featureTransformer.biases Memory.garbage =
          memset
            (memcpy Memory.garbage (Cache.entryAddr Layout.small 4096 3 1)
              (biasBytes Network.small.featureTransformer.biases)
              Layout.small.sizeof_accumulation)
            (Entry.zeroedFrom Layout.small (Cache.entryAddr Layout.small 4096 3 1)) 0
            (Entry.zeroedCount Layout.small) ∧
        Entry.zeroedFrom Layout.small (Cache.entryAddr Layout.small 4096 3 1) =
          Cache.entryAddr Layout.small 4096 3 1 + Layout.small.offsetof_psqtAccumulation ∧
        Layout.small.offsetof_psqtAccumulation + Entry.zeroedCount Layout.small =
          Layout.small.sizeof_Entry ∧
        (Layout.small.offsetof_psqtAccumulation +
              sizeof_PSQTWeightType * Layout.small.PSQTBuckets ≤ Layout.small.sizeof_Entry ∧
          Layout.small.offsetof_psqtAccumulation ≤ Layout.small.offsetof_byColorBB ∧
          Layout.small.offsetof_byColorBB + COLOR_NB * Layout.small.sizeof_Bitboard ≤
            Layout.small.sizeof_Entry ∧
          Layout.small.offsetof_psqtAccumulation ≤ Layout.small.offsetof_byTypeBB ∧
          Layout.small.offsetof_byTypeBB +
              Layout.small.PIECE_TYPE_NB * Layout.small.sizeof_Bitboard ≤
            Layout.small.sizeof_Entry) ∧
        (∀ r, Layout.small.offsetof_psqtAccumulation ≤ r → r < Layout.small.sizeof_Entry →
          Entry.clear Layout.small (Cache.entryAddr Layout.small 4096 3 1)
            Network.small.featureTransformer.biases Memory.garbage
            (Cache.entryAddr Layout.small 4096 3 1 + r) = 0) ∧
        Layout.small.sizeof_accumulation ≤ Layout.small.offsetof_psqtAccumulation ∧
        (∀ r, r < Layout.small.sizeof_accumulation →
          Entry.clear Layout.small (Cache.entryAddr Layout.small 4096 3 1)
            Network.small.featureTransformer.biases Memory.garbage
            (Cache.entryAddr Layout.small 4096 3 1 + r) =
              biasBytes Network.small.featureTransformer.biases r) ∧
        (∀ i2 c2, c2 < COLOR_NB → ¬ (i2 = 3 ∧ c2 = 1) → ∀ r, r < Layout.small.sizeof_Entry →
          Entry.clear Layout.small (Cache.entryAddr Layout.small 4096 3 1)
            Network.small.featureTransformer.biases Memory.garbage
            (Cache.entryAddr Layout.small 4096 i2 c2 + r) =
              Memory.garbage (Cache.entryAddr Layout.small 4096 i2 c2 + r)) ∧
        (∀ a, a < Cache.entryAddr Layout.small 4096 3 1 ∨
            Cache.entryAddr Layout.small 4096 3 1 + Layout.small.sizeof_Entry ≤ a →
          Entry.clear Layout.small (Cache.entryAddr Layout.small 4096 3 1)
            Network.small.featureTransformer.biases Memory.garbage a = Memory.garbage a)) :=
  ⟨by decide, by decide,
    Entry.clear_zeroes_own_tail Layout.small (by decide) 4096 3 1 (by decide)
      Network.small.featureTransformer.biases Memory.garbage⟩

end Stockfish.Eval.NNUE
